import Mathlib

/-!
Verification of the aggregation-and-derived-metrics layer of the PhonePe Pulse
dashboard (`src/app.py`).  The dashboard's computations are pandas/SQL
expressions over tabular data; they are embedded here as executable Lean
functions over lists of records.  Measures are exact rationals; the special
values that float arithmetic produces at zero denominators (NaN, ±infinity)
are represented explicitly by the `FVal` type, with NaN playing pandas' role
of the missing-value marker.
-/

namespace Pulse

/-- A numeric cell as produced by the dashboard's float arithmetic: a finite
rational, positive or negative infinity, or NaN.  NaN doubles as pandas'
missing-value marker (the result of `shift` past a group boundary, of a NULL
measure, or of `0/0`). -/
inductive FVal where
  | nan : FVal
  | posInf : FVal
  | negInf : FVal
  | fin : ℚ → FVal
  deriving DecidableEq, Repr

/-- Float division as pandas performs it elementwise: `a / 0` is `+inf` for
positive `a`, `-inf` for negative `a`, and NaN for `0 / 0`; otherwise the
exact quotient. -/
def fdiv (a b : ℚ) : FVal :=
  if b = 0 then
    (if 0 < a then FVal.posInf else if a < 0 then FVal.negInf else FVal.nan)
  else FVal.fin (a / b)

/-- One step of `pct_change() * 100` (src/app.py lines 483-484): the growth of
the current value `c` against the previous value `p` of the same partition.
With a zero base, float arithmetic yields `±inf` (or NaN for `0/0`); otherwise
`(c - p) / p * 100`. -/
def pctChangeVal (p c : ℚ) : FVal :=
  if p = 0 then
    (if 0 < c then FVal.posInf else if c < 0 then FVal.negInf else FVal.nan)
  else FVal.fin ((c - p) / p * 100)

/-- Tail of the growth column: each value compared against its predecessor. -/
def computeGrowthGo : ℚ → List ℚ → List FVal
  | _, [] => []
  | p, c :: rest => pctChangeVal p c :: computeGrowthGo c rest

/-- Embeds `df_state_year.groupby("state")[measure].pct_change() * 100`
(src/app.py lines 483-484) on one state partition, whose rows are already in
ascending year order from the query's `ORDER BY state, year`.  The first row
of the partition has no previous row (`shift` yields NaN) and every later row
is compared with its immediate predecessor. -/
def computeGrowth : List ℚ → List FVal
  | [] => []
  | c :: rest => FVal.nan :: computeGrowthGo c rest

/-- Minimum of a column, as `Series.min` over a nonempty column. -/
def listMin : List ℚ → ℚ
  | [] => 0
  | x :: xs => xs.foldl min x

/-- Maximum of a column, as `Series.max` over a nonempty column. -/
def listMax : List ℚ → ℚ
  | [] => 0
  | x :: xs => xs.foldl max x

/-- Embeds the min-max normalisation of src/app.py lines 545-549:
`(x - col.min()) / (col.max() - col.min())` applied elementwise. -/
def normalize (xs : List ℚ) : List FVal :=
  xs.map (fun x => fdiv (x - listMin xs) (listMax xs - listMin xs))

/-- Embeds the elementwise pandas division
`df_engagement["total_app_opens"] / df_engagement["total_registered_users"]`
(src/app.py line 293): a NULL (NaN) operand propagates NaN, a zero denominator
follows float division rules. -/
def ratioDiv (num den : Option ℚ) : FVal :=
  match num, den with
  | none, _ => FVal.nan
  | some _, none => FVal.nan
  | some a, some b => fdiv a b

/-- Float comparison `v >= q`: false whenever `v` is NaN. -/
def fge (v : FVal) (q : ℚ) : Bool :=
  match v with
  | FVal.fin a => decide (q ≤ a)
  | FVal.posInf => true
  | FVal.negInf => false
  | FVal.nan => false

/-- Float comparison `v < q`: false whenever `v` is NaN. -/
def fltQ (v : FVal) (q : ℚ) : Bool :=
  match v with
  | FVal.fin a => decide (a < q)
  | FVal.posInf => false
  | FVal.negInf => true
  | FVal.nan => false

/-- Embeds the row-wise quadrant lambda of src/app.py lines 551-558: the four
market-segment labels obtained by comparing the two normalised scores against
the 0.5 threshold, with the final branch as the catch-all `else`. -/
def categorize (countNorm amountNorm : FVal) : String :=
  if fge countNorm (1/2) && fge amountNorm (1/2) then "High Count – High Value"
  else if fge countNorm (1/2) && fltQ amountNorm (1/2) then "High Count – Low Value"
  else if fltQ countNorm (1/2) && fge amountNorm (1/2) then "Low Count – High Value"
  else "Low Count – Low Value"

/-- SQL `SUM` over one group's measure values: NULLs are skipped, and a group
with no non-NULL value sums to NULL. -/
def sqlSum (xs : List (Option ℚ)) : Option ℚ :=
  if xs.all (fun x => x.isNone) then none
  else some ((xs.map (fun x => x.getD 0)).sum)

/-- Embeds the dashboard's `GROUP BY` queries (e.g. `df_yearly_txn`,
src/app.py lines 115-123, and the ungrouped `df_txn_summary` of lines 79-84
with a constant key): the raw rows satisfying the `WHERE` filter are grouped
by the key, producing one output row per distinct key whose measure is the SQL
sum over that key's rows. -/
def aggregate {R K : Type} [DecidableEq K] (key : R → K) (m : R → Option ℚ)
    (flt : R → Bool) (rows : List R) : List (K × Option ℚ) :=
  let mr := rows.filter flt
  ((mr.map key).dedup).map
    (fun k => (k, sqlSum ((mr.filter (fun r => decide (key r = k))).map m)))

/-- Comparison used by the ranking sort: ascending by key, or descending when
`desc` is true. -/
def rankLE {R : Type} (key : R → ℚ) (desc : Bool) (a b : R) : Bool :=
  if desc then decide (key b ≤ key a) else decide (key a ≤ key b)

/-- The sorted row list underlying the select-N rankings `nlargest(n, col)` /
`nsmallest(n, col)` (src/app.py lines 396-414 and 441-460): with the default
`keep="first"`, pandas implements these by a mergesort-based stable selection,
so they are embedded as a stable sort by the chosen measure in the requested
direction.  The `sort_values` ranking of line 195 uses numpy's default
quicksort, which is not stable, and is embedded separately by
`sortValuesHead` below. -/
def sortByField {R : Type} (key : R → ℚ) (desc : Bool) (rows : List R) : List R :=
  rows.mergeSort (rankLE key desc)

/-- Embeds the dashboard's stable top-N / bottom-N rankings
`nlargest(n, col)` / `nsmallest(n, col)` (src/app.py lines 396-414): sort by
the measure in the requested direction, then truncate to the first `n`
rows. -/
def rank {R : Type} (key : R → ℚ) (n : ℕ) (desc : Bool) (rows : List R) : List R :=
  (sortByField key desc rows).take n

/-- Index lookup in an argsort index table, as C pointer reads do. -/
def lget (t : List ℕ) (i : ℕ) : ℕ := t.getD i 0

/-- Swap of two entries of the index table (`INTP_SWAP`). -/
def lswap (t : List ℕ) (i j : ℕ) : List ℕ := (t.set i (lget t j)).set j (lget t i)

/-- Value lookup in the column being sorted. -/
def vget (v : List ℚ) (i : ℕ) : ℚ := v.getD i 0

/-- The column value at index-table position `i`, i.e. `v[*pi]` in the C. -/
def aval (v : List ℚ) (t : List ℕ) (i : ℕ) : ℚ := vget v (lget t i)

/-- The `do ++pi; while (v[*pi] < vp)` scan of numpy's quicksort partition:
advance `pi` past values below the pivot.  The fuel always exceeds the
segment length, and the pivot sentinel stops the scan as in the C code. -/
def scanRight (v : List ℚ) (t : List ℕ) (vp : ℚ) : ℕ → ℕ → ℕ
  | 0, pi => pi
  | fuel + 1, pi =>
    if aval v t (pi + 1) < vp then scanRight v t vp fuel (pi + 1) else pi + 1

/-- The `do --pj; while (vp < v[*pj])` scan: retreat `pj` past values above
the pivot. -/
def scanLeft (v : List ℚ) (t : List ℕ) (vp : ℚ) : ℕ → ℕ → ℕ
  | 0, pj => pj
  | fuel + 1, pj =>
    if vp < aval v t (pj - 1) then scanLeft v t vp fuel (pj - 1) else pj - 1

/-- The swap loop of numpy's quicksort partition: scan from both ends and
swap out-of-place pairs until the scans cross; returns the table and the
crossing position `pi`. -/
def partitionLoop (v : List ℚ) (vp : ℚ) : ℕ → List ℕ → ℕ → ℕ → List ℕ × ℕ
  | 0, t, pi, _ => (t, pi)
  | fuel + 1, t, pi, pj =>
    let pi' := scanRight v t vp t.length pi
    let pj' := scanLeft v t vp t.length pj
    if pi' ≥ pj' then (t, pi')
    else partitionLoop v vp fuel (lswap t pi' pj') pi' pj'

/-- One partition step of numpy's `aquicksort` (npysort/quicksort.c.src) on
the inclusive segment `[lo, hi]`: median-of-three pivot selection with the
three conditional swaps, pivot parked at `hi - 1`, the two-ended swap loop,
and the final swap placing the pivot at the crossing position. -/
def npPartition (v : List ℚ) (t : List ℕ) (lo hi : ℕ) : List ℕ × ℕ :=
  let pm := lo + (hi - lo) / 2
  let t1 := if aval v t pm < aval v t lo then lswap t pm lo else t
  let t2 := if aval v t1 hi < aval v t1 pm then lswap t1 hi pm else t1
  let t3 := if aval v t2 pm < aval v t2 lo then lswap t2 pm lo else t2
  let vp := aval v t3 pm
  let t4 := lswap t3 pm (hi - 1)
  let r := partitionLoop v vp t4.length t4 lo (hi - 1)
  (lswap r.1 r.2 (hi - 1), r.2)

/-- The element-shifting inner loop of the insertion sort:
`while (pj > pl && vp < v[*pk]) *pj-- = *pk--;`. -/
def insShift (v : List ℚ) (vp : ℚ) (lo : ℕ) : ℕ → List ℕ → ℕ → List ℕ × ℕ
  | 0, t, pj => (t, pj)
  | fuel + 1, t, pj =>
    if pj > lo ∧ vp < aval v t (pj - 1) then
      insShift v vp lo fuel (t.set pj (lget t (pj - 1))) (pj - 1)
    else (t, pj)

/-- The insertion-sort sweep over `[lo + 1, hi]` used by numpy's quicksort on
segments of at most 16 entries. -/
def insLoop (v : List ℚ) (lo hi : ℕ) : ℕ → List ℕ → ℕ → List ℕ
  | 0, t, _ => t
  | fuel + 1, t, pi =>
    if pi > hi then t
    else
      let vi := lget t pi
      let vp := vget v vi
      let r := insShift v vp lo t.length t pi
      insLoop v lo hi fuel (r.1.set r.2 vi) (pi + 1)

/-- Insertion sort of the index table on the inclusive segment `[lo, hi]`. -/
def insSortSeg (v : List ℚ) (t : List ℕ) (lo hi : ℕ) : List ℕ :=
  insLoop v lo hi (t.length + 1) t (lo + 1)

/-- The driver loop of numpy's `aquicksort` introsort: while a segment holds
more than `SMALL_QUICKSORT = 15` pointer-widths (17 or more entries),
partition it, push the larger side on the explicit stack and continue with
the smaller; smaller segments are insertion sorted and the stack popped.  The
shared depth budget (`2 * msb(num)`) is threaded through; the heapsort
fallback it guards (reached only on adversarial pivot chains, never on the
inputs considered here) is outside this embedding and, like fuel exhaustion,
is signalled by `none` rather than by a wrong table. -/
def introLoop (v : List ℚ) : ℕ → List ℕ → ℕ → ℕ → ℤ → List (ℕ × ℕ) → Option (List ℕ)
  | 0, _, _, _, _, _ => none
  | fuel + 1, t, lo, hi, depth, stack =>
    if hi - lo > 15 then
      if depth < 0 then none
      else
        let r := npPartition v t lo hi
        if r.2 - lo < hi - r.2 then
          introLoop v fuel r.1 lo (r.2 - 1) (depth - 1) ((r.2 + 1, hi) :: stack)
        else
          introLoop v fuel r.1 (r.2 + 1) hi (depth - 1) ((lo, r.2 - 1) :: stack)
    else
      let t' := insSortSeg v t lo hi
      match stack with
      | [] => some t'
      | (l, h) :: rest => introLoop v fuel t' l h depth rest

/-- numpy's `argsort(kind="quicksort")` on a column: the introsort above over
an initial index table `[0, ..., n-1]`, with the depth budget
`npy_get_msb(num) * 2`.  The fuel strictly exceeds the number of driver
iterations any run can perform (at most one partition and one insertion
segment per element). -/
def npArgsortQ (v : List ℚ) : Option (List ℕ) :=
  introLoop v (2 * v.length + 2) (List.range v.length) 0 (v.length - 1)
    (2 * (Nat.log2 v.length) : ℤ) []

/-- pandas `nargsort` (pandas/core/sorting.py) for a column without NaNs, as
called by single-column `sort_values`: ascending is a plain argsort;
descending reverses the values, argsorts ascending, maps the resulting
positions through the reversed index list (`n - 1 - i`) and reverses the
result. -/
def nargsortIdx (vals : List ℚ) (ascending : Bool) : Option (List ℕ) :=
  if ascending then npArgsortQ vals
  else
    (npArgsortQ vals.reverse).map
      (fun perm => (perm.map (fun i => vals.length - 1 - i)).reverse)

/-- Embeds the ranking at src/app.py lines 194-195,
`df_year_filter.sort_values("total_txn_amount", ascending=False).head(15)`:
reorder the rows by pandas' `nargsort` with numpy's default quicksort, then
truncate to the first `n` rows. -/
def sortValuesHead {R : Type} [Inhabited R] (key : R → ℚ) (ascending : Bool)
    (n : ℕ) (rows : List R) : Option (List R) :=
  (nargsortIdx (rows.map key) ascending).map
    (fun idxs => (idxs.take n).map (fun i => rows.getD i default))

/-- A raw row of the `aggregated_user` table as used by the engagement query:
both engagement measures may be NULL upstream. -/
structure UserRow where
  state : String
  year : Int
  registeredUsers : Option ℚ
  appOpens : Option ℚ
  deriving DecidableEq, Repr

/-- One output row of the engagement pipeline, carrying the two summed
measures and the derived `engagement_ratio` column (named `opensPerUser`
here). -/
structure EngRow where
  state : String
  year : Int
  registeredUsers : ℚ
  appOpens : ℚ
  opensPerUser : FVal
  deriving DecidableEq, Repr

/-- Embeds the `df_engagement` pipeline of src/app.py lines 281-293: `WHERE`
keeps only rows with both measures non-NULL, rows are grouped by
`(state, year)`, `HAVING SUM(total_registered_users) > 0` drops groups whose
summed denominator is not positive, and the ratio column is the elementwise
division of the two group sums. -/
def dfEngagement (raw : List UserRow) : List EngRow :=
  let f := raw.filter (fun r => !r.registeredUsers.isNone && !r.appOpens.isNone)
  ((f.map (fun r => (r.state, r.year))).dedup).filterMap (fun k =>
    let g := f.filter (fun r => decide ((r.state, r.year) = k))
    let sr := (g.map (fun r => r.registeredUsers.getD 0)).sum
    let sa := (g.map (fun r => r.appOpens.getD 0)).sum
    if 0 < sr then some ⟨k.1, k.2, sr, sa, ratioDiv (some sa) (some sr)⟩ else none)

/-- Outcome of rendering one dashboard section: either the explicit no-data
notice or a chart over a row list. -/
inductive RenderOutcome (R : Type) where
  | noData : RenderOutcome R
  | chart : List R → RenderOutcome R
  deriving DecidableEq

/-- Embeds the caller of src/app.py lines 263-274: an empty selection renders
the explicit "No data for this state/year combination." notice, otherwise a
bar chart of the rows sorted descending by the measure. -/
def renderStateBrand {R : Type} (key : R → ℚ) (rows : List R) : RenderOutcome R :=
  if rows.isEmpty then RenderOutcome.noData
  else RenderOutcome.chart (sortByField key true rows)

/-- Helper: the growth column's tail pairs each value with its predecessor. -/
theorem computeGrowthGo_get :
    ∀ (i : ℕ) (xs : List ℚ) (p0 p c : ℚ), (p0 :: xs)[i]? = some p →
      xs[i]? = some c → (computeGrowthGo p0 xs)[i]? = some (pctChangeVal p c) := by
  intro i
  induction i with
  | zero =>
    intro xs p0 p c hp hc
    cases xs with
    | nil => cases hc
    | cons x rest =>
      simp only [List.getElem?_cons_zero, Option.some.injEq] at hp hc
      simp [computeGrowthGo, hp, hc]
  | succ i ih =>
    intro xs p0 p c hp hc
    cases xs with
    | nil => cases hc
    | cons x rest =>
      simp only [List.getElem?_cons_succ] at hp hc
      simpa [computeGrowthGo] using ih rest x p c hp hc

/-- Claim C6: in every growth partition (rows of one state group, sorted
ascending by year), the first row's growth value is the NaN missing marker
regardless of its measure, and every later row with a nonzero previous value
has growth `(current - previous) / previous * 100`. -/
theorem growth_first_row_and_formula :
    (∀ (c : ℚ) (rest : List ℚ), (computeGrowth (c :: rest)).head? = some FVal.nan)
    ∧ (∀ (part : List ℚ) (i : ℕ) (p c : ℚ), part[i]? = some p →
        part[i + 1]? = some c → p ≠ 0 →
        (computeGrowth part)[i + 1]? = some (FVal.fin ((c - p) / p * 100))) := by
  constructor
  · intro c rest
    simp [computeGrowth]
  · intro part i p c hp hc hp0
    cases part with
    | nil => cases hp
    | cons c0 rest =>
      simp only [List.getElem?_cons_succ] at hc
      have h := computeGrowthGo_get i rest c0 p c hp hc
      simp only [computeGrowth, List.getElem?_cons_succ]
      rw [h, pctChangeVal, if_neg hp0]

/-- Witness for C6: measure series 100 then 150 gives NaN for the first year
and 50% growth for the second. -/
theorem growth_first_row_and_formula_witness :
    (computeGrowth [100, 150]).head? = some FVal.nan
    ∧ (computeGrowth [100, 150])[1]? = some (FVal.fin 50) := by
  constructor
  · exact growth_first_row_and_formula.1 100 [150]
  · have h := growth_first_row_and_formula.2 [100, 150] 0 100 150 rfl rfl (by norm_num)
    norm_num at h
    exact h

/-- Claim C1 counterexample: a partition whose first measure is 0 and whose
second measure is 5 > 0.  The code's `pct_change` yields positive infinity for
the second row, not the NaN missing marker the claim requires. -/
theorem growth_zero_base_counterexample :
    computeGrowth [0, 5] = [FVal.nan, FVal.posInf] ∧ FVal.posInf ≠ FVal.nan := by
  constructor
  · simp [computeGrowth, computeGrowthGo, pctChangeVal]
  · simp

/-- Claim C1 amended: in every growth partition, a row whose previous-period
value is 0 gets growth `+inf` when its current value is positive, `-inf` when
negative, and the NaN missing marker only when the current value is also 0. -/
theorem growth_zero_base :
    ∀ (part : List ℚ) (i : ℕ) (c : ℚ), part[i]? = some 0 →
      part[i + 1]? = some c →
      (computeGrowth part)[i + 1]?
        = some (if 0 < c then FVal.posInf else if c < 0 then FVal.negInf
                else FVal.nan) := by
  intro part i c hp hc
  cases part with
  | nil => cases hp
  | cons c0 rest =>
    simp only [List.getElem?_cons_succ] at hc
    have h := computeGrowthGo_get i rest c0 0 c hp hc
    simp only [computeGrowth, List.getElem?_cons_succ]
    rw [h, pctChangeVal, if_pos rfl]

/-- Witness for the amended C1: partition `[0, 5]` has `+inf` growth at its
second row. -/
theorem growth_zero_base_witness :
    (computeGrowth [0, 5])[1]? = some FVal.posInf := by
  have h := growth_zero_base [0, 5] 0 5 rfl rfl
  norm_num at h
  exact h

/-- Helper: a `foldl min` is bounded by its initial accumulator. -/
theorem foldl_min_le_init (xs : List ℚ) : ∀ a : ℚ, xs.foldl min a ≤ a := by
  induction xs with
  | nil => intro a; exact le_refl a
  | cons x rest ih =>
    intro a
    exact le_trans (ih (min a x)) (min_le_left a x)

/-- Helper: a `foldl min` is bounded by every list element. -/
theorem foldl_min_le_mem (xs : List ℚ) :
    ∀ (a x : ℚ), x ∈ xs → xs.foldl min a ≤ x := by
  induction xs with
  | nil => intro a x hx; cases hx
  | cons y rest ih =>
    intro a x hx
    cases hx with
    | head => exact le_trans (foldl_min_le_init rest (min a _)) (min_le_right a _)
    | tail _ h => exact ih (min a y) x h

/-- Helper: a `foldl max` dominates its initial accumulator. -/
theorem init_le_foldl_max (xs : List ℚ) : ∀ a : ℚ, a ≤ xs.foldl max a := by
  induction xs with
  | nil => intro a; exact le_refl a
  | cons x rest ih =>
    intro a
    exact le_trans (le_max_left a x) (ih (max a x))

/-- Helper: a `foldl max` dominates every list element. -/
theorem mem_le_foldl_max (xs : List ℚ) :
    ∀ (a x : ℚ), x ∈ xs → x ≤ xs.foldl max a := by
  induction xs with
  | nil => intro a x hx; cases hx
  | cons y rest ih =>
    intro a x hx
    cases hx with
    | head => exact le_trans (le_max_right a _) (init_le_foldl_max rest (max a _))
    | tail _ h => exact ih (max a y) x h

/-- Helper: the column minimum bounds every column value. -/
theorem listMin_le (xs : List ℚ) (x : ℚ) (hx : x ∈ xs) : listMin xs ≤ x := by
  cases xs with
  | nil => cases hx
  | cons y rest =>
    cases hx with
    | head => exact foldl_min_le_init rest _
    | tail _ h => exact foldl_min_le_mem rest y x h

/-- Helper: every column value is bounded by the column maximum. -/
theorem le_listMax (xs : List ℚ) (x : ℚ) (hx : x ∈ xs) : x ≤ listMax xs := by
  cases xs with
  | nil => cases hx
  | cons y rest =>
    cases hx with
    | head => exact init_le_foldl_max rest _
    | tail _ h => exact mem_le_foldl_max rest y x h

/-- Claim C2 counterexample: a single-row set.  The code's
`(x - min) / (max - min)` is `0 / 0`, which float arithmetic resolves to NaN,
not to the score 0 the claim requires. -/
theorem normalize_degenerate_counterexample :
    normalize [5] = [FVal.nan] ∧ FVal.nan ≠ FVal.fin 0 := by
  constructor
  · simp [normalize, listMin, listMax, fdiv]
  · simp

/-- Claim C2 amended: whenever the column minimum equals the column maximum
(single-row or constant sets) every normalised score is the NaN missing value
produced by `0 / 0` — not 0; the computation is total, so there is still no
crash and no division error. -/
theorem normalize_degenerate (xs : List ℚ) (h : listMin xs = listMax xs) :
    ∀ v ∈ normalize xs, v = FVal.nan := by
  intro v hv
  rw [normalize, List.mem_map] at hv
  obtain ⟨x, hx, hfx⟩ := hv
  have h1 : listMin xs ≤ x := listMin_le xs x hx
  have h2 : x ≤ listMax xs := le_listMax xs x hx
  have hxeq : x = listMin xs := le_antisymm (h ▸ h2) h1
  rw [← hfx, hxeq, h, sub_self]
  simp [fdiv]

/-- Witness for the amended C2: the constant two-row column `[7, 7]` has every
score equal to NaN. -/
theorem normalize_degenerate_witness :
    listMin [(7 : ℚ), 7] = listMax [(7 : ℚ), 7]
    ∧ ∀ v ∈ normalize [(7 : ℚ), 7], v = FVal.nan := by
  refine ⟨?_, normalize_degenerate [(7 : ℚ), 7] ?_⟩ <;>
    simp [listMin, listMax]

/-- Helper: a list's sum splits across a boolean filter and its complement. -/
theorem sum_map_filter_add {R : Type} (p : R → Bool) (f : R → ℚ) (l : List R) :
    ((l.filter p).map f).sum + ((l.filter (fun r => !p r)).map f).sum
      = (l.map f).sum := by
  induction l with
  | nil => simp
  | cons x rest ih =>
    by_cases h : p x = true
    · simp only [List.filter_cons, h, Bool.not_true, if_pos, if_neg, List.map_cons,
        List.sum_cons, Bool.false_eq_true, ite_false, ite_true]
      rw [← ih]
      ring
    · have h' : p x = false := by simpa using h
      simp only [List.filter_cons, h', Bool.not_false, Bool.false_eq_true, ite_false,
        ite_true, List.map_cons, List.sum_cons]
      rw [← ih]
      ring

/-- Helper: summing group by group over a duplicate-free list of keys covering
all rows equals summing over the rows directly. -/
theorem sum_over_keys {R K : Type} [DecidableEq K] (key : R → K) (f : R → ℚ) :
    ∀ ks : List K, ks.Nodup → ∀ l : List R, (∀ r ∈ l, key r ∈ ks) →
      ((ks.map (fun k =>
          ((l.filter (fun r => decide (key r = k))).map f).sum)).sum
        = (l.map f).sum) := by
  intro ks
  induction ks with
  | nil =>
    intro _ l hl
    cases l with
    | nil => simp
    | cons r rest => exact absurd (hl r (List.mem_cons_self r rest)) (List.not_mem_nil _)
  | cons k ks ih =>
    intro hnd l hl
    have hk : k ∉ ks := (List.nodup_cons.mp hnd).1
    have hnd' : ks.Nodup := (List.nodup_cons.mp hnd).2
    have hcov : ∀ r ∈ l.filter (fun r => !(decide (key r = k))), key r ∈ ks := by
      intro r hr
      have hr' := List.mem_filter.mp hr
      have h2 : ¬ key r = k := by simpa using hr'.2
      cases List.mem_cons.mp (hl r hr'.1) with
      | inl h => exact absurd h h2
      | inr h => exact h
    have hrec := ih hnd' (l.filter (fun r => !(decide (key r = k)))) hcov
    have hmap : ∀ k' ∈ ks,
        ((l.filter (fun r => decide (key r = k'))).map f).sum
          = (((l.filter (fun r => !(decide (key r = k)))).filter
              (fun r => decide (key r = k'))).map f).sum := by
      intro k' hk'
      have heq : (l.filter (fun r => !(decide (key r = k)))).filter
          (fun r => decide (key r = k')) = l.filter (fun r => decide (key r = k')) := by
        rw [List.filter_filter]
        apply List.filter_congr
        intro r _
        by_cases h : key r = k'
        · have hne : ¬ k' = k := fun hh => hk (hh ▸ hk')
          simp [h, hne]
        · simp [h]
      rw [heq]
    simp only [List.map_cons, List.sum_cons]
    rw [List.map_congr_left hmap, hrec,
      sum_map_filter_add (fun r => decide (key r = k)) f l]

/-- Helper: reading a SQL sum with NULL defaulted to 0 equals summing the
values with NULL contributing 0. -/
theorem sqlSum_getD (xs : List (Option ℚ)) :
    (sqlSum xs).getD 0 = (xs.map (fun x => x.getD 0)).sum := by
  unfold sqlSum
  split
  · rename_i h
    symm
    apply List.sum_eq_zero
    intro q hq
    rw [List.mem_map] at hq
    obtain ⟨o, ho, rfl⟩ := hq
    have ha := List.all_eq_true.mp h o ho
    cases o with
    | none => rfl
    | some a => simp at ha
  · rfl

/-- Claim C5: conservation of totals — for every grouped aggregation, the sum
of a measure over all output groups equals the sum of that measure over all
raw rows matching the filter, with NULL measures contributing 0. -/
theorem grouped_sum_conservation {R K : Type} [DecidableEq K] (key : R → K)
    (m : R → Option ℚ) (flt : R → Bool) (rows : List R) :
    ((aggregate key m flt rows).map (fun g => g.2.getD 0)).sum
      = ((rows.filter flt).map (fun r => (m r).getD 0)).sum := by
  unfold aggregate
  rw [List.map_map]
  have hpt : ∀ k ∈ ((rows.filter flt).map key).dedup,
      ((fun g : K × Option ℚ => g.2.getD 0) ∘
        (fun k => (k, sqlSum (((rows.filter flt).filter
          (fun r => decide (key r = k))).map m)))) k
        = (((rows.filter flt).filter (fun r => decide (key r = k))).map
            (fun r => (m r).getD 0)).sum := by
    intro k _
    simp only [Function.comp]
    rw [sqlSum_getD, List.map_map]
    rfl
  rw [List.map_congr_left hpt]
  exact sum_over_keys key (fun r => (m r).getD 0) _ (List.nodup_dedup _) _
    (fun r hr => List.mem_dedup.mpr (List.mem_map_of_mem key hr))

/-- Claim C7: a filter matching zero raw rows makes the aggregation return the
empty sequence as a valid outcome, and the caller's explicit empty check
renders the no-data state rather than crashing. -/
theorem empty_filter_no_data {R K : Type} [DecidableEq K] (key : R → K)
    (m : R → Option ℚ) (flt : R → Bool) (rows : List R)
    (kf : K × Option ℚ → ℚ) (h : ∀ r ∈ rows, flt r = false) :
    aggregate key m flt rows = []
      ∧ renderStateBrand kf (aggregate key m flt rows)
          = RenderOutcome.noData := by
  have hf : rows.filter flt = [] := by
    rw [List.filter_eq_nil_iff]
    intro a ha
    simp [h a ha]
  have h0 : aggregate key m flt rows = [] := by
    simp [aggregate, hf]
  refine ⟨h0, ?_⟩
  rw [h0]
  rfl

/-- Witness for C7: an always-false filter over two raw rows. -/
theorem empty_filter_no_data_witness :
    aggregate (fun r : ℕ => r) (fun _ : ℕ => (none : Option ℚ))
        (fun _ => false) [1, 2] = []
      ∧ renderStateBrand (fun _ : ℕ × Option ℚ => (0 : ℚ))
          (aggregate (fun r : ℕ => r) (fun _ : ℕ => (none : Option ℚ))
            (fun _ => false) [1, 2])
        = RenderOutcome.noData :=
  empty_filter_no_data _ _ _ _ _ (fun _ _ => rfl)

/-- Claim C3 counterexample: a row with numerator 1 and denominator 0.  The
code's elementwise division yields positive infinity, which is neither the NaN
missing marker the claim requires nor the literal 0 nor an error. -/
theorem ratio_zero_denominator_counterexample :
    ratioDiv (some 1) (some 0) = FVal.posInf
      ∧ FVal.posInf ≠ FVal.nan ∧ FVal.posInf ≠ FVal.fin 0 := by
  refine ⟨?_, by simp, by simp⟩
  simp [ratioDiv, fdiv]

/-- Claim C3 amended: a NULL denominator (or NULL numerator) yields the NaN
missing value; a denominator of 0 yields `+inf` for a positive numerator,
`-inf` for a negative one, and NaN only for `0 / 0` — never the literal 0 and
never a division error; otherwise the ratio is numerator / denominator. -/
theorem ratio_characterization (num den : Option ℚ) :
    (den = none → ratioDiv num den = FVal.nan)
    ∧ (num = none → ratioDiv num den = FVal.nan)
    ∧ (∀ a : ℚ, num = some a → den = some 0 →
        ratioDiv num den
          = (if 0 < a then FVal.posInf else if a < 0 then FVal.negInf
             else FVal.nan))
    ∧ (∀ a b : ℚ, num = some a → den = some b → b ≠ 0 →
        ratioDiv num den = FVal.fin (a / b))
    ∧ ((den = none ∨ den = some 0) → ratioDiv num den ≠ FVal.fin 0) := by
  refine ⟨?_, ?_, ?_, ?_, ?_⟩
  · intro hd
    cases num <;> simp [ratioDiv, hd]
  · intro hn
    cases den <;> simp [ratioDiv, hn]
  · intro a hn hd
    rw [hn, hd]
    simp [ratioDiv, fdiv]
  · intro a b hn hd hb
    rw [hn, hd]
    simp [ratioDiv, fdiv, hb]
  · intro hd
    cases hd with
    | inl h =>
      cases num <;> simp [ratioDiv, h]
    | inr h =>
      cases num with
      | none => simp [ratioDiv, h]
      | some a =>
        rw [h]
        simp only [ratioDiv, fdiv, if_pos rfl]
        by_cases ha : 0 < a
        · simp [ha]
        · by_cases ha' : a < 0 <;> simp [ha, ha']

/-- Witness for the amended C3: a well-defined ratio `4 / 2 = 2` and the
`0 / 0` missing value. -/
theorem ratio_characterization_witness :
    ratioDiv (some 4) (some 2) = FVal.fin 2
      ∧ ratioDiv (some 0) (some 0) = FVal.nan := by
  constructor
  · have h := (ratio_characterization (some 4) (some 2)).2.2.2.1 4 2 rfl rfl
      (by norm_num)
    norm_num at h
    exact h
  · have h := (ratio_characterization (some 0) (some 0)).2.2.1 0 rfl rfl
    norm_num at h
    exact h

/-- Claim C8: on finite normalised scores the quadrant label is exactly the
four-way threshold rule against 0.5, with a score of exactly 0.5 classified
High on its dimension; the label depends only on the two scores. -/
theorem quadrant_rule (x y : ℚ) :
    categorize (FVal.fin x) (FVal.fin y)
      = (if 1/2 ≤ x then
           (if 1/2 ≤ y then "High Count – High Value"
            else "High Count – Low Value")
         else
           (if 1/2 ≤ y then "Low Count – High Value"
            else "Low Count – Low Value"))
    ∧ categorize (FVal.fin (1/2)) (FVal.fin (1/2)) = "High Count – High Value" := by
  constructor
  · unfold categorize fge fltQ
    simp only [one_div]
    by_cases h1 : (2⁻¹ : ℚ) ≤ x <;> by_cases h2 : (2⁻¹ : ℚ) ≤ y
    · simp [h1, h2]
    · simp [h1, h2, not_le.mp h2]
    · simp [h1, h2, not_le.mp h1]
    · simp [h1, h2]
  · simp [categorize, fge]

/-- Claim C9: the quadrant categorisation is total — every pair of scores gets
exactly one of the four labels, and a score failing both threshold
comparisons (as a NaN score from degenerate normalisation does) falls through
to the final "Low Count – Low Value" branch instead of erroring. -/
theorem quadrant_total (v w : FVal) :
    (categorize v w = "High Count – High Value"
      ∨ categorize v w = "High Count – Low Value"
      ∨ categorize v w = "Low Count – High Value"
      ∨ categorize v w = "Low Count – Low Value")
    ∧ (fge v (1/2) = false → fltQ v (1/2) = false →
        categorize v w = "Low Count – Low Value")
    ∧ categorize FVal.nan w = "Low Count – Low Value" := by
  refine ⟨?_, ?_, ?_⟩
  · unfold categorize
    split
    · exact Or.inl rfl
    · split
      · exact Or.inr (Or.inl rfl)
      · split
        · exact Or.inr (Or.inr (Or.inl rfl))
        · exact Or.inr (Or.inr (Or.inr rfl))
  · intro h1 h2
    simp only [one_div] at h1 h2
    simp [categorize, h1, h2]
  · simp [categorize, fge, fltQ]

/-- Witness for C9: NaN scores on both dimensions land in the catch-all
segment. -/
theorem quadrant_total_witness :
    categorize FVal.nan FVal.nan = "Low Count – Low Value" :=
  (quadrant_total FVal.nan FVal.nan).2.1 rfl rfl

/-- Claim C10: every row of the engagement result has a strictly positive
summed registered-user denominator (NULL rows and non-positive groups having
been excluded by the WHERE and HAVING filters), so its ratio column is the
defined, finite value appOpens / registeredUsers. -/
theorem engagement_ratio_defined (raw : List UserRow) (row : EngRow)
    (h : row ∈ dfEngagement raw) :
    0 < row.registeredUsers
      ∧ row.opensPerUser = FVal.fin (row.appOpens / row.registeredUsers) := by
  unfold dfEngagement at h
  rw [List.mem_filterMap] at h
  obtain ⟨k, _, hf⟩ := h
  dsimp only at hf
  split at hf
  · rename_i hpos
    cases hf
    refine ⟨hpos, ?_⟩
    simp only [ratioDiv, fdiv]
    rw [if_neg (ne_of_gt hpos)]
  · cases hf

/-- Witness for C10: one raw row with 10 registered users and 30 app opens
produces one engagement row with ratio 3. -/
theorem engagement_ratio_defined_witness :
    (0 : ℚ) < (⟨"A", 2021, 10, 30, FVal.fin 3⟩ : EngRow).registeredUsers
      ∧ (⟨"A", 2021, 10, 30, FVal.fin 3⟩ : EngRow).opensPerUser
          = FVal.fin ((⟨"A", 2021, 10, 30, FVal.fin 3⟩ : EngRow).appOpens
              / (⟨"A", 2021, 10, 30, FVal.fin 3⟩ : EngRow).registeredUsers) :=
  engagement_ratio_defined [⟨"A", 2021, some 10, some 30⟩]
    ⟨"A", 2021, 10, 30, FVal.fin 3⟩ (by
      simp [dfEngagement, ratioDiv, fdiv]
      norm_num)

/-- Helper: the ranking comparison is transitive. -/
theorem rankLE_trans {R : Type} (key : R → ℚ) (desc : Bool) :
    ∀ a b c : R, rankLE key desc a b = true → rankLE key desc b c = true →
      rankLE key desc a c = true := by
  intro a b c hab hbc
  cases desc with
  | false =>
    simp only [rankLE, if_neg, Bool.false_eq_true, ite_false, decide_eq_true_eq] at *
    exact le_trans hab hbc
  | true =>
    simp only [rankLE, if_pos, ite_true, decide_eq_true_eq] at *
    exact le_trans hbc hab

/-- Helper: the ranking comparison is total. -/
theorem rankLE_total {R : Type} (key : R → ℚ) (desc : Bool) :
    ∀ a b : R, rankLE key desc a b || rankLE key desc b a := by
  intro a b
  cases desc with
  | false =>
    simp only [rankLE, Bool.false_eq_true, ite_false, Bool.or_eq_true,
      decide_eq_true_eq]
    exact le_total _ _
  | true =>
    simp only [rankLE, ite_true, Bool.or_eq_true, decide_eq_true_eq]
    exact le_total _ _

/-- Helper: stability of the ranking sort — the rows tied at any given key
value appear in the sorted list exactly in their original input order. -/
theorem sortByField_ties {R : Type} (key : R → ℚ) (desc : Bool) (rows : List R)
    (v : ℚ) :
    (sortByField key desc rows).filter (fun r => decide (key r = v))
      = rows.filter (fun r => decide (key r = v)) := by
  have hperm : List.Perm
      ((sortByField key desc rows).filter (fun r => decide (key r = v)))
      (rows.filter (fun r => decide (key r = v))) :=
    (List.mergeSort_perm rows (rankLE key desc)).filter _
  have hpw : (rows.filter (fun r => decide (key r = v))).Pairwise
      (fun a b => rankLE key desc a b = true) := by
    apply List.pairwise_of_forall_mem_list
    intro a ha b hb
    have hka : key a = v := of_decide_eq_true (List.mem_filter.mp ha).2
    have hkb : key b = v := of_decide_eq_true (List.mem_filter.mp hb).2
    cases desc <;> simp [rankLE, hka, hkb]
  have hsub : List.Sublist (rows.filter (fun r => decide (key r = v)))
      (sortByField key desc rows) :=
    List.sublist_mergeSort (rankLE_trans key desc) (rankLE_total key desc) hpw
      (List.filter_sublist rows)
  have hsub2 : List.Sublist (rows.filter (fun r => decide (key r = v)))
      ((sortByField key desc rows).filter (fun r => decide (key r = v))) := by
    have h := hsub.filter (fun r => decide (key r = v))
    rwa [List.filter_filter, List.filter_congr
      (fun r _ => Bool.and_self (decide (key r = v)))] at h
  exact (hsub2.eq_of_length hperm.length_eq.symm).symm

/-- Claim C4 counterexample: seventeen rows all tied at measure value 5,
ranked descending with `n = 15` through the `sort_values` site of src/app.py
lines 194-195.  numpy's default quicksort partitions once a frame exceeds 16
rows and its index swaps reorder the tied rows: the program returns the rows
in the order 0, 9, 15, 14, ..., which is not the first fifteen rows in
original order and not a subsequence of the input, refuting the claimed
original-row-order tie-break (a stable ranking of all-tied rows would leave
them unchanged). -/
theorem rank_quicksort_ties_counterexample :
    sortValuesHead (fun _ : ℕ => (5 : ℚ)) false 15 (List.range 17)
      = some [0, 9, 15, 14, 13, 12, 11, 10, 8, 1, 7, 6, 5, 4, 3]
    ∧ ¬ List.Sublist [0, 9, 15, 14, 13, 12, 11, 10, 8, 1, 7, 6, 5, 4, 3]
        (List.range 17)
    ∧ [0, 9, 15, 14, 13, 12, 11, 10, 8, 1, 7, 6, 5, 4, 3]
        ≠ (List.range 17).take 15 := by
  refine ⟨by decide, by decide, by decide⟩

/-- Claim C4 amended: the select-N rankings (`nlargest` / `nsmallest` with
the default `keep="first"`, src/app.py lines 396-414) return at most `n`
rows, sorted by the chosen field in the requested direction; the result is a
selection (sublist) of the stably sorted input, whose tie classes keep their
original row order — hence the ranking is deterministic; and an `n` at or
beyond the row count returns every row (the whole sorted list) rather than
raising an error.  The `sort_values`-based ranking of line 195 does not share
the tie-break guarantee: see the counterexample above. -/
theorem rank_bounds_sorted_stable {R : Type} (key : R → ℚ) (n : ℕ) (desc : Bool)
    (rows : List R) :
    (rank key n desc rows).length ≤ n
    ∧ (rank key n desc rows).Pairwise (fun a b => rankLE key desc a b = true)
    ∧ List.Sublist (rank key n desc rows) (sortByField key desc rows)
    ∧ List.Perm (sortByField key desc rows) rows
    ∧ (∀ v : ℚ, (sortByField key desc rows).filter (fun r => decide (key r = v))
        = rows.filter (fun r => decide (key r = v)))
    ∧ (rows.length ≤ n → rank key n desc rows = sortByField key desc rows) := by
  refine ⟨?_, ?_, ?_, ?_, ?_, ?_⟩
  · exact List.length_take_le n _
  · exact List.Pairwise.sublist (List.take_sublist n _)
      (List.sorted_mergeSort (rankLE_trans key desc) (rankLE_total key desc) rows)
  · exact List.take_sublist n _
  · exact List.mergeSort_perm rows (rankLE key desc)
  · exact fun v => sortByField_ties key desc rows v
  · intro h
    unfold rank
    exact List.take_of_length_le (by
      rw [sortByField, List.length_mergeSort]
      exact h)

/-- Witness for the amended C4: three rows all tied at key 0, ranked
descending with `n = 5` beyond the row count: the result is the whole
(unchanged) row list. -/
theorem rank_bounds_sorted_stable_witness :
    rank (fun _ : ℕ => (0 : ℚ)) 5 true [1, 2, 3]
        = sortByField (fun _ : ℕ => (0 : ℚ)) true [1, 2, 3]
      ∧ (rank (fun _ : ℕ => (0 : ℚ)) 5 true [1, 2, 3]).length ≤ 5 :=
  ⟨(rank_bounds_sorted_stable (fun _ => 0) 5 true [1, 2, 3]).2.2.2.2.2
      (by norm_num),
   (rank_bounds_sorted_stable (fun _ => 0) 5 true [1, 2, 3]).1⟩

end Pulse
